import Mathlib

/-!
Verification of the ShadowReloadedSpeedrunDashboard core pipeline:
ranking/obsolescence engine (`dashboard_core/processing_runs.py`),
verified-run repository (`dashboard_core/fetch_runs.py`),
resilient fetch client (`dashboard_core/api_utils.py`) and
paginated collector (`dashboard_core/api_client.py`).

Machine floats (pandas NaN included) are modelled as `Option ℚ` with `none`
playing the role of NaN/null; record ids are `String`; grouping-column values
take an abstract type `γ` with decidable equality.
-/

namespace ShadowDashboard

/-! ### Ranking & obsolescence engine (`processing_runs.py`) -/

/-- A row of the DataFrame slice handed to `mark_obsolete_and_place`.
`gcols` holds the values of the chosen grouping columns for this row
(`none` modelling a null cell); `primary_t` is the duration (`none` = NaN);
`place` is the nullable integer place column. -/
structure RunRow (γ : Type) where
  gcols : List (Option γ)
  player_id : Option String
  note : Option String
  primary_t : Option ℚ
  obsolete : Bool
  place : Option ℤ
  deriving DecidableEq, Repr

/-- All grouping-column cells, provided none is null (pandas `groupby` drops a
row whose key contains a null). -/
def allSome {γ : Type} : List (Option γ) → Option (List γ)
  | [] => some []
  | none :: _ => none
  | some x :: xs => (allSome xs).map (x :: ·)

/-- The obsolescence grouping key `groupby_cols + ["player_id", "note"]`;
`none` when any key column is null (row dropped by pandas `groupby`). -/
def obsKey {γ : Type} (r : RunRow γ) : Option (List γ × String × String) :=
  match allSome r.gcols, r.player_id, r.note with
  | some gs, some p, some n => some (gs, p, n)
  | _, _, _ => none

/-- The ranking grouping key (grouping columns only). -/
def rankKey {γ : Type} (r : RunRow γ) : Option (List γ) :=
  allSome r.gcols

/-- Minimum of a list of rationals (`none` on the empty list). -/
def minQ? : List ℚ → Option ℚ
  | [] => none
  | x :: xs =>
    match minQ? xs with
    | none => some x
    | some m => some (min x m)

/-- pandas `min` over a column with NaNs: skip NaN, NaN if nothing remains. -/
def groupMin (vals : List (Option ℚ)) : Option ℚ :=
  minQ? (vals.filterMap id)

/-- pandas `!=` on float cells: any NaN compares as `True`. -/
def pneq (a b : Option ℚ) : Bool :=
  match a, b with
  | some x, some y => decide (x ≠ y)
  | _, _ => true

/-- pandas `<` on float cells: any NaN compares as `False`. -/
def pltB (a b : Option ℚ) : Bool :=
  match a, b with
  | some x, some y => decide (x < y)
  | _, _ => false

/-- `df.groupby(keys)["primary_t"].transform("min")` evaluated at row `r`:
NaN when the row's key is dropped, else the cohort minimum (skipping NaN). -/
def transform_min_obs {γ : Type} [DecidableEq γ] (rows : List (RunRow γ)) (r : RunRow γ) :
    Option ℚ :=
  match obsKey r with
  | none => none
  | some k => groupMin ((rows.filter (fun s => decide (obsKey s = some k))).map (·.primary_t))

/-- `_mark_obsolete_runs`: `best = df.groupby(keys)["primary_t"].transform("min")`;
`df["obsolete"] = df["primary_t"] != best`. -/
def mark_obsolete_runs {γ : Type} [DecidableEq γ] (rows : List (RunRow γ)) :
    List (RunRow γ) :=
  rows.map (fun r => { r with obsolete := pneq r.primary_t (transform_min_obs rows r) })

/-- The pandas `rank(method="min", ascending=True)` value of a non-obsolete row
within its group: 1 + the number of strictly smaller non-obsolete durations of
the same group; null when the row's group key is dropped or its duration is
NaN. -/
def placeOf {γ : Type} [DecidableEq γ] (rows : List (RunRow γ)) (r : RunRow γ) :
    Option ℤ :=
  match rankKey r, r.primary_t with
  | some k, some t =>
      some (1 + (rows.countP (fun s =>
        !s.obsolete && decide (rankKey s = some k) && pltB s.primary_t (some t)) : ℤ))
  | _, _ => none

/-- `_assign_ranking`: among non-obsolete rows, group by the grouping columns and
rank `primary_t` with `method="min"` (1 + number of strictly smaller values in the
group); rows with a dropped key or NaN duration receive a null place, and
obsolete rows are untouched. -/
def assign_ranking {γ : Type} [DecidableEq γ] (rows : List (RunRow γ)) :
    List (RunRow γ) :=
  rows.map (fun r =>
    if r.obsolete then r
    else { r with place := placeOf rows r })

/-- `mark_obsolete_and_place`: obsolescence pass then ranking pass. -/
def mark_obsolete_and_place {γ : Type} [DecidableEq γ] (rows : List (RunRow γ)) :
    List (RunRow γ) :=
  assign_ranking (mark_obsolete_runs rows)

/-- The duration of a row, defaulting a NaN to `0` (only used under the
precondition that the duration is non-null). -/
def dur {γ : Type} (r : RunRow γ) : ℚ :=
  r.primary_t.getD 0

theorem minQ_eq_none {l : List ℚ} : minQ? l = none ↔ l = [] := by
  cases l with
  | nil => simp [minQ?]
  | cons x xs =>
    simp only [minQ?]
    cases h : minQ? xs <;> simp

theorem minQ_le {l : List ℚ} : ∀ {m : ℚ}, minQ? l = some m → ∀ x ∈ l, m ≤ x := by
  induction l with
  | nil => intro m h; simp [minQ?] at h
  | cons a l ih =>
    intro m h x hx
    simp only [minQ?] at h
    cases hl : minQ? l with
    | none =>
      rw [hl] at h
      injection h with h
      subst h
      rcases minQ_eq_none.mp hl with rfl
      rcases List.mem_singleton.mp hx with rfl
      exact le_refl _
    | some mt =>
      rw [hl] at h
      injection h with h
      subst h
      rcases List.mem_cons.mp hx with rfl | hx
      · exact min_le_left _ _
      · exact le_trans (min_le_right _ _) (ih hl x hx)

theorem minQ_mem {l : List ℚ} : ∀ {m : ℚ}, minQ? l = some m → m ∈ l := by
  induction l with
  | nil => intro m h; simp [minQ?] at h
  | cons a l ih =>
    intro m h
    simp only [minQ?] at h
    cases hl : minQ? l with
    | none =>
      rw [hl] at h
      injection h with h
      subst h
      exact List.mem_cons_self _ _
    | some mt =>
      rw [hl] at h
      injection h with h
      subst h
      rcases le_total a mt with hle | hle
      · rw [min_eq_left hle]; exact List.mem_cons_self _ _
      · rw [min_eq_right hle]; exact List.mem_cons_of_mem _ (ih hl)

/-- Default row used with `List.getD` when indexing row lists. -/
def defaultRow (γ : Type) : RunRow γ :=
  ⟨[], none, none, none, false, none⟩

theorem allSome_of_forall {γ : Type} {l : List (Option γ)} (h : ∀ v ∈ l, v ≠ none) :
    ∃ gs, allSome l = some gs := by
  induction l with
  | nil => exact ⟨[], rfl⟩
  | cons a l ih =>
    cases a with
    | none => exact absurd rfl (h none (List.mem_cons_self _ _))
    | some x =>
      obtain ⟨gs, hgs⟩ := ih (fun v hv => h v (List.mem_cons_of_mem _ hv))
      exact ⟨x :: gs, by simp [allSome, hgs]⟩

theorem obsKey_isSome {γ : Type} {r : RunRow γ}
    (h1 : ∀ v ∈ r.gcols, v ≠ none) (h2 : r.player_id ≠ none) (h3 : r.note ≠ none) :
    ∃ k, obsKey r = some k := by
  obtain ⟨gs, hgs⟩ := allSome_of_forall h1
  obtain ⟨p, hp⟩ := Option.ne_none_iff_exists.mp h2
  obtain ⟨n, hn⟩ := Option.ne_none_iff_exists.mp h3
  exact ⟨(gs, p, n), by simp [obsKey, hgs, ← hp, ← hn]⟩

theorem mem_cohortVals {γ : Type} [DecidableEq γ] (rows : List (RunRow γ))
    (k : List γ × String × String) (x : ℚ) :
    (x ∈ ((rows.filter (fun s => decide (obsKey s = some k))).map (·.primary_t)).filterMap id) ↔
      ∃ s ∈ rows, obsKey s = some k ∧ s.primary_t = some x := by
  simp only [List.mem_filterMap, List.mem_map, List.mem_filter, id_eq, decide_eq_true_eq]
  constructor
  · rintro ⟨a, ⟨s, ⟨hs, hk⟩, hval⟩, ha⟩
    exact ⟨s, hs, hk, by rw [hval, ha]⟩
  · rintro ⟨s, hs, hk, hval⟩
    exact ⟨some x, ⟨s, ⟨hs, hk⟩, hval⟩, rfl⟩

/-- Claim C1: after `_mark_obsolete_runs`, provided every record has non-null
grouping columns, player id, note and duration, `obsolete = false` holds exactly
on the records whose duration is a minimum of their player-note cohort
(ties at the minimum all stay non-obsolete), and `obsolete = true` on every
other record of the cohort. -/
theorem obsolete_iff_cohort_min {γ : Type} [DecidableEq γ] (rows : List (RunRow γ))
    (hpre : ∀ r ∈ rows, (∀ v ∈ r.gcols, v ≠ none) ∧ r.player_id ≠ none ∧
      r.note ≠ none ∧ r.primary_t ≠ none) :
    (mark_obsolete_runs rows).length = rows.length ∧
    ∀ i, i < rows.length →
      (((mark_obsolete_runs rows).getD i (defaultRow γ)).obsolete = false ↔
        ∀ s ∈ rows, obsKey s = obsKey (rows.getD i (defaultRow γ)) →
          dur (rows.getD i (defaultRow γ)) ≤ dur s) := by
  constructor
  · simp [mark_obsolete_runs]
  intro i hi
  have hlen : i < (rows.map
      (fun r => { r with obsolete := pneq r.primary_t (transform_min_obs rows r) })).length := by
    simpa using hi
  have hout : (mark_obsolete_runs rows).getD i (defaultRow γ) =
      { rows.getD i (defaultRow γ) with
        obsolete := pneq (rows.getD i (defaultRow γ)).primary_t
          (transform_min_obs rows (rows.getD i (defaultRow γ))) } := by
    rw [mark_obsolete_runs, List.getD_eq_get _ _ hlen, List.get_map,
      List.getD_eq_get _ _ hi]
  set r := rows.getD i (defaultRow γ) with hr
  have hrmem : r ∈ rows := by
    rw [hr, List.getD_eq_get _ _ hi]; exact List.get_mem _ _ _
  obtain ⟨h1, h2, h3, h4⟩ := hpre r hrmem
  obtain ⟨k, hk⟩ := obsKey_isSome h1 h2 h3
  obtain ⟨t, ht⟩ := Option.ne_none_iff_exists.mp h4
  have htmem : t ∈ ((rows.filter (fun s => decide (obsKey s = some k))).map
      (·.primary_t)).filterMap id :=
    (mem_cohortVals rows k t).mpr ⟨r, hrmem, hk, ht.symm⟩
  obtain ⟨mval, hmval⟩ : ∃ mval,
      minQ? (((rows.filter (fun s => decide (obsKey s = some k))).map
        (·.primary_t)).filterMap id) = some mval := by
    cases hmq : minQ? (((rows.filter (fun s => decide (obsKey s = some k))).map
        (·.primary_t)).filterMap id) with
    | none =>
      rw [minQ_eq_none.mp hmq] at htmem
      simp at htmem
    | some mv => exact ⟨mv, rfl⟩
  have htrans : transform_min_obs rows r = some mval := by
    rw [transform_min_obs, hk]
    simpa [groupMin] using hmval
  have hobs : ((mark_obsolete_runs rows).getD i (defaultRow γ)).obsolete =
      pneq (some t) (some mval) := by
    rw [hout]
    simp only []
    rw [← ht, htrans]
  rw [hobs]
  have hdr : dur r = t := by rw [dur, ← ht]; rfl
  constructor
  · intro hfalse s hs hks
    have hteq : t = mval := by
      by_contra hne
      simp [pneq, hne] at hfalse
    obtain ⟨_, _, _, h4s⟩ := hpre s hs
    obtain ⟨ts, hts⟩ := Option.ne_none_iff_exists.mp h4s
    have hsmem : ts ∈ ((rows.filter (fun s => decide (obsKey s = some k))).map
        (·.primary_t)).filterMap id :=
      (mem_cohortVals rows k ts).mpr ⟨s, hs, by rw [hks, hk], hts.symm⟩
    have : mval ≤ ts := minQ_le hmval ts hsmem
    rw [hdr, hteq]
    calc mval ≤ ts := this
    _ = dur s := by rw [dur, ← hts]; rfl
  · intro hmin
    have hmle : mval ≤ t := minQ_le hmval t htmem
    obtain ⟨s, hs, hks, hvs⟩ := (mem_cohortVals rows k mval).mp (minQ_mem hmval)
    have := hmin s hs (by rw [hks, hk])
    rw [hdr] at this
    have hdurs : dur s = mval := by rw [dur, hvs]; rfl
    rw [hdurs] at this
    have hteq : t = mval := le_antisymm this hmle
    simp [pneq, hteq]

theorem getD_map_of_lt {α β : Type} (f : α → β) (l : List α) {i : ℕ} (h : i < l.length)
    (d : β) (d2 : α) : (l.map f).getD i d = f (l.getD i d2) := by
  rw [List.getD_eq_getElem _ _ (by simpa using h), List.getElem_map,
    List.getD_eq_getElem _ _ h]

theorem getD_mem_of_lt {α : Type} (l : List α) {i : ℕ} (h : i < l.length) (d : α) :
    l.getD i d ∈ l := by
  rw [List.getD_eq_getElem _ _ h]
  exact List.getElem_mem _

theorem pneq_eq_false {a b : Option ℚ} (h : pneq a b = false) :
    ∃ x, a = some x ∧ b = some x := by
  cases a with
  | none => simp [pneq] at h
  | some x =>
    cases b with
    | none => simp [pneq] at h
    | some y =>
      simp [pneq] at h
      exact ⟨x, rfl, by rw [h]⟩

theorem rankKey_of_obsKey {γ : Type} {r : RunRow γ} {k : List γ × String × String}
    (h : obsKey r = some k) : rankKey r = some k.1 := by
  rcases hg : allSome r.gcols with _ | gs <;>
    rcases hp : r.player_id with _ | p <;>
    rcases hn : r.note with _ | n <;>
    simp [obsKey, hg, hp, hn] at h
  rw [rankKey, hg, ← h]

theorem obsKey_of_transform_some {γ : Type} [DecidableEq γ] {rows : List (RunRow γ)}
    {r : RunRow γ} (h : transform_min_obs rows r ≠ none) : ∃ k, obsKey r = some k := by
  rw [transform_min_obs] at h
  cases hk : obsKey r with
  | none => rw [hk] at h; exact absurd rfl h
  | some k => exact ⟨k, rfl⟩

theorem mark_getD {γ : Type} [DecidableEq γ] (rows : List (RunRow γ)) {i : ℕ}
    (h : i < rows.length) :
    (mark_obsolete_runs rows).getD i (defaultRow γ) =
      { rows.getD i (defaultRow γ) with
        obsolete := pneq (rows.getD i (defaultRow γ)).primary_t
          (transform_min_obs rows (rows.getD i (defaultRow γ))) } := by
  rw [mark_obsolete_runs]
  exact getD_map_of_lt _ _ h _ _

theorem placeOf_eq {γ : Type} [DecidableEq γ] {rows : List (RunRow γ)} {r : RunRow γ}
    {k1 : List γ} {t : ℚ} (hk : rankKey r = some k1) (ht : r.primary_t = some t) :
    placeOf rows r = some (1 + (rows.countP (fun s =>
      !s.obsolete && decide (rankKey s = some k1) && pltB s.primary_t (some t)) : ℤ)) := by
  simp only [placeOf, hk, ht]

/-- Claim C2: after the ranking pass, each non-obsolete record's place equals
1 + the number of non-obsolete records of the same group (grouping columns only)
with strictly smaller duration — competition ranking, so records with equal
durations share a place — and every obsolete record keeps a null place
(places start out null in the pipeline). -/
theorem place_eq_competition_rank {γ : Type} [DecidableEq γ] (rows : List (RunRow γ))
    (hplace : ∀ r ∈ rows, r.place = none) :
    (mark_obsolete_and_place rows).length = rows.length ∧
    (∀ i, i < rows.length →
      ((((mark_obsolete_and_place rows).getD i (defaultRow γ)).obsolete = false →
          ((mark_obsolete_and_place rows).getD i (defaultRow γ)).place =
            some (1 + ((mark_obsolete_and_place rows).countP (fun s =>
              !s.obsolete &&
              decide (rankKey s =
                rankKey ((mark_obsolete_and_place rows).getD i (defaultRow γ))) &&
              pltB s.primary_t
                ((mark_obsolete_and_place rows).getD i (defaultRow γ)).primary_t) : ℤ))) ∧
        (((mark_obsolete_and_place rows).getD i (defaultRow γ)).obsolete = true →
          ((mark_obsolete_and_place rows).getD i (defaultRow γ)).place = none))) ∧
    (∀ i j, i < rows.length → j < rows.length →
      ((mark_obsolete_and_place rows).getD i (defaultRow γ)).obsolete = false →
      ((mark_obsolete_and_place rows).getD j (defaultRow γ)).obsolete = false →
      rankKey ((mark_obsolete_and_place rows).getD i (defaultRow γ)) =
        rankKey ((mark_obsolete_and_place rows).getD j (defaultRow γ)) →
      ((mark_obsolete_and_place rows).getD i (defaultRow γ)).primary_t =
        ((mark_obsolete_and_place rows).getD j (defaultRow γ)).primary_t →
      ((mark_obsolete_and_place rows).getD i (defaultRow γ)).place =
        ((mark_obsolete_and_place rows).getD j (defaultRow γ)).place) := by
  have hlenm : (mark_obsolete_runs rows).length = rows.length := by
    simp [mark_obsolete_runs]
  have hlen : (mark_obsolete_and_place rows).length = rows.length := by
    simp [mark_obsolete_and_place, assign_ranking, hlenm]
  have hmain : ∀ i, i < rows.length →
      ((((mark_obsolete_and_place rows).getD i (defaultRow γ)).obsolete = false →
          ((mark_obsolete_and_place rows).getD i (defaultRow γ)).place =
            some (1 + ((mark_obsolete_and_place rows).countP (fun s =>
              !s.obsolete &&
              decide (rankKey s =
                rankKey ((mark_obsolete_and_place rows).getD i (defaultRow γ))) &&
              pltB s.primary_t
                ((mark_obsolete_and_place rows).getD i (defaultRow γ)).primary_t) : ℤ))) ∧
        (((mark_obsolete_and_place rows).getD i (defaultRow γ)).obsolete = true →
          ((mark_obsolete_and_place rows).getD i (defaultRow γ)).place = none)) := by
    intro i hi
    have hm := mark_getD rows hi
    have ho : (mark_obsolete_and_place rows).getD i (defaultRow γ) =
        (if ((mark_obsolete_runs rows).getD i (defaultRow γ)).obsolete then
          (mark_obsolete_runs rows).getD i (defaultRow γ)
        else
          { (mark_obsolete_runs rows).getD i (defaultRow γ) with place :=
              (placeOf (mark_obsolete_runs rows)
                ((mark_obsolete_runs rows).getD i (defaultRow γ))) }) := by
      rw [mark_obsolete_and_place, assign_ranking]
      exact getD_map_of_lt _ _ (by rw [hlenm]; exact hi) _ (defaultRow γ)
    by_cases hob : ((mark_obsolete_runs rows).getD i (defaultRow γ)).obsolete = true
    · constructor
      · intro hfalse
        exfalso
        rw [ho, if_pos hob] at hfalse
        rw [hob] at hfalse
        simp at hfalse
      · intro _
        rw [ho, if_pos hob, hm]
        exact hplace (rows.getD i (defaultRow γ)) (getD_mem_of_lt rows hi (defaultRow γ))
    · have hobf : ((mark_obsolete_runs rows).getD i (defaultRow γ)).obsolete = false := by
        simpa using hob
      have hpne : pneq (rows.getD i (defaultRow γ)).primary_t
          (transform_min_obs rows (rows.getD i (defaultRow γ))) = false := by
        rw [hm] at hobf
        exact hobf
      obtain ⟨t, hpt, htr⟩ := pneq_eq_false hpne
      obtain ⟨k, hk⟩ := @obsKey_of_transform_some γ _ rows
        (rows.getD i (defaultRow γ)) (by rw [htr]; simp)
      have hrk0 : rankKey (rows.getD i (defaultRow γ)) = some k.1 := rankKey_of_obsKey hk
      have hrkm : rankKey ((mark_obsolete_runs rows).getD i (defaultRow γ)) = some k.1 := by
        rw [hm]; exact hrk0
      have hptm : ((mark_obsolete_runs rows).getD i (defaultRow γ)).primary_t = some t := by
        rw [hm]; exact hpt
      have hobf2 : ((mark_obsolete_runs rows).getD i (defaultRow γ)).obsolete = false := by
        simpa using hob
      have ho2 : (mark_obsolete_and_place rows).getD i (defaultRow γ) =
          { (mark_obsolete_runs rows).getD i (defaultRow γ) with place :=
              (some (1 + ((mark_obsolete_runs rows).countP (fun s =>
                !s.obsolete && decide (rankKey s = some k.1) &&
                pltB s.primary_t (some t)) : ℤ))) } := by
        rw [ho, if_neg (by rw [hobf2]; simp), placeOf_eq hrkm hptm]
      have hrko : rankKey ((mark_obsolete_and_place rows).getD i (defaultRow γ)) =
          some k.1 := by rw [ho2]; exact hrkm
      have hpto : ((mark_obsolete_and_place rows).getD i (defaultRow γ)).primary_t =
          some t := by rw [ho2]; exact hptm
      constructor
      · intro _
        simp only [hrko, hpto]
        have hcnt : ((mark_obsolete_and_place rows).countP (fun s =>
            !s.obsolete && decide (rankKey s = some k.1) && pltB s.primary_t (some t))) =
            ((mark_obsolete_runs rows).countP (fun s =>
            !s.obsolete && decide (rankKey s = some k.1) && pltB s.primary_t (some t))) := by
          rw [mark_obsolete_and_place, assign_ranking, List.countP_map]
          refine List.countP_congr ?_
          intro a _
          cases hA : a.obsolete with
          | true => simp [Function.comp, hA]
          | false =>
            simp only [Function.comp, hA, Bool.false_eq_true, if_false]
            exact Iff.rfl
        rw [hcnt, ho2]
      · intro htrue
        exfalso
        rw [ho2] at htrue
        have h2 : ((mark_obsolete_runs rows).getD i (defaultRow γ)).obsolete = true := htrue
        rw [hobf2] at h2
        simp at h2
  refine ⟨hlen, hmain, ?_⟩
  intro i j hi hj hoi hoj hrk hpt
  rw [(hmain i hi).1 hoi, (hmain j hj).1 hoj, hrk, hpt]

/-- Two records in the same player-note cohort with durations 10 and 12. -/
def rowA : RunRow String :=
  { gcols := [some "Westopolis", some "catA"], player_id := some "p1",
    note := some "n1", primary_t := some 10, obsolete := false, place := none }

def rowB : RunRow String :=
  { gcols := [some "Westopolis", some "catA"], player_id := some "p1",
    note := some "n1", primary_t := some 12, obsolete := false, place := none }

def sampleRows : List (RunRow String) := [rowA, rowB]

theorem obsolete_iff_cohort_min_witness :
    (∀ r ∈ sampleRows, (∀ v ∈ r.gcols, v ≠ none) ∧ r.player_id ≠ none ∧
      r.note ≠ none ∧ r.primary_t ≠ none) ∧
    ((mark_obsolete_runs sampleRows).length = sampleRows.length ∧
     ∀ i, i < sampleRows.length →
       (((mark_obsolete_runs sampleRows).getD i (defaultRow String)).obsolete = false ↔
         ∀ s ∈ sampleRows, obsKey s = obsKey (sampleRows.getD i (defaultRow String)) →
           dur (sampleRows.getD i (defaultRow String)) ≤ dur s)) :=
  ⟨by decide, obsolete_iff_cohort_min sampleRows (by decide)⟩

theorem place_eq_competition_rank_witness :
    (∀ r ∈ sampleRows, r.place = none) ∧
    ((mark_obsolete_and_place sampleRows).length = sampleRows.length ∧
     (∀ i, i < sampleRows.length →
       ((((mark_obsolete_and_place sampleRows).getD i (defaultRow String)).obsolete = false →
           ((mark_obsolete_and_place sampleRows).getD i (defaultRow String)).place =
             some (1 + ((mark_obsolete_and_place sampleRows).countP (fun s =>
               !s.obsolete &&
               decide (rankKey s =
                 rankKey ((mark_obsolete_and_place sampleRows).getD i (defaultRow String))) &&
               pltB s.primary_t
                 ((mark_obsolete_and_place sampleRows).getD i
                   (defaultRow String)).primary_t) : ℤ))) ∧
         (((mark_obsolete_and_place sampleRows).getD i (defaultRow String)).obsolete = true →
           ((mark_obsolete_and_place sampleRows).getD i (defaultRow String)).place = none))) ∧
     (∀ i j, i < sampleRows.length → j < sampleRows.length →
       ((mark_obsolete_and_place sampleRows).getD i (defaultRow String)).obsolete = false →
       ((mark_obsolete_and_place sampleRows).getD j (defaultRow String)).obsolete = false →
       rankKey ((mark_obsolete_and_place sampleRows).getD i (defaultRow String)) =
         rankKey ((mark_obsolete_and_place sampleRows).getD j (defaultRow String)) →
       ((mark_obsolete_and_place sampleRows).getD i (defaultRow String)).primary_t =
         ((mark_obsolete_and_place sampleRows).getD j (defaultRow String)).primary_t →
       ((mark_obsolete_and_place sampleRows).getD i (defaultRow String)).place =
         ((mark_obsolete_and_place sampleRows).getD j (defaultRow String)).place)) :=
  ⟨by decide, place_eq_competition_rank sampleRows (by decide)⟩

/-- A single record whose attributed player id is null (empty participant list
or first participant without an id upstream). -/
def nullPlayerRow : RunRow String :=
  { gcols := [some "Westopolis"], player_id := none,
    note := some "n1", primary_t := some 10, obsolete := false, place := none }

/-- Claim C9 counterexample: on a one-record input whose player id is null,
the pipeline marks the record obsolete with a null place (pandas drops null
group keys), not non-obsolete with place 1 as the claim states. -/
theorem null_player_singleton_is_obsolete :
    mark_obsolete_and_place [nullPlayerRow] =
      [{ nullPlayerRow with obsolete := true, place := none }] ∧
    ¬ (((mark_obsolete_and_place [nullPlayerRow]).getD 0
          (defaultRow String)).obsolete = false ∧
       ((mark_obsolete_and_place [nullPlayerRow]).getD 0
          (defaultRow String)).place = some 1) := by
  constructor
  · decide
  · decide

/-- Claim C9 (amended): a record set consisting of exactly one record whose
grouping columns, player id, note and duration are all non-null leaves that
record non-obsolete with place 1; with a null player id the single record is
instead marked obsolete with a null place (see the counterexample). -/
theorem singleton_nonobsolete_rank_one {γ : Type} [DecidableEq γ] (r : RunRow γ)
    (h1 : ∀ v ∈ r.gcols, v ≠ none) (h2 : r.player_id ≠ none) (h3 : r.note ≠ none)
    (h4 : r.primary_t ≠ none) :
    mark_obsolete_and_place [r] = [{ r with obsolete := false, place := some 1 }] := by
  obtain ⟨k, hk⟩ := obsKey_isSome h1 h2 h3
  obtain ⟨t, ht⟩ := Option.ne_none_iff_exists.mp h4
  have htr : transform_min_obs [r] r = r.primary_t := by
    rw [transform_min_obs, hk]
    simp [groupMin, hk, minQ?, ← ht]
  have hpne : pneq r.primary_t (transform_min_obs [r] r) = false := by
    rw [htr, ← ht]; simp [pneq]
  have hmark : mark_obsolete_runs [r] = [{ r with obsolete := false }] := by
    simp [mark_obsolete_runs, hpne]
  rw [mark_obsolete_and_place, hmark, assign_ranking]
  have hkm : rankKey ({ r with obsolete := false } : RunRow γ) = some k.1 :=
    rankKey_of_obsKey hk
  have hptm : ({ r with obsolete := false } : RunRow γ).primary_t = some t := ht.symm
  have hplt : pltB ({ r with obsolete := false } : RunRow γ).primary_t (some t) = false := by
    rw [hptm]; simp [pltB]
  have hcnt : List.countP (fun s =>
      !s.obsolete && decide (rankKey s = some k.1) && pltB s.primary_t (some t))
      [({ r with obsolete := false } : RunRow γ)] = 0 := by
    rw [List.countP_cons]
    simp [hplt]
  simp only [List.map]
  rw [if_neg (by simp), placeOf_eq hkm hptm, hcnt]
  rfl

theorem singleton_nonobsolete_rank_one_witness :
    (∀ v ∈ rowA.gcols, v ≠ none) ∧ rowA.player_id ≠ none ∧ rowA.note ≠ none ∧
    rowA.primary_t ≠ none ∧
    mark_obsolete_and_place [rowA] = [{ rowA with obsolete := false, place := some 1 }] :=
  ⟨by decide, by decide, by decide, by decide,
    singleton_nonobsolete_rank_one rowA (by decide) (by decide) (by decide) (by decide)⟩

/-! ### Verified-run repository (`fetch_runs.py`) -/

/-- A raw API run record: its identity, the value of
`run.get("status", {}).get("status")`, and the rest of the JSON object,
kept opaque. -/
structure RawRun (α : Type) where
  id : String
  statusStatus : Option String
  body : α
  deriving DecidableEq, Repr

/-- `r.get("status", {}).get("status") == "verified"`. -/
def isVerified {α : Type} (r : RawRun α) : Bool :=
  decide (r.statusStatus = some "verified")

/-- One step of the Python dict comprehension `{run["id"]: run for run in ...}`:
an existing key keeps its insertion position but takes the new value; a new key
is appended. -/
def upsert {α : Type} (m : List (RawRun α)) (r : RawRun α) : List (RawRun α) :=
  if m.any (fun s => s.id == r.id) then
    m.map (fun s => if s.id == r.id then r else s)
  else m ++ [r]

/-- `{run["id"]: run for run in rs}` as an insertion-ordered association list. -/
def mergeById {α : Type} (rs : List (RawRun α)) : List (RawRun α) :=
  rs.foldl upsert []

/-- The last record of `l` with identity `k` (last-writer-wins). -/
def lastWithId {α : Type} (l : List (RawRun α)) (k : String) : Option (RawRun α) :=
  l.foldl (fun acc r => if r.id == k then some r else acc) none

/-- The record list produced by `client.get_all_runs` in `fetch_verified_runs`:
empty when the fetch raised (recovered failure). -/
def fetchedOf {α : Type} (fr : Except String (List (RawRun α))) : List (RawRun α) :=
  match fr with
  | .ok rs => rs
  | .error _ => []

/-- `True` exactly on `Except.error`. -/
def isErr {ε β : Type} (x : Except ε β) : Bool :=
  match x with
  | .error _ => true
  | .ok _ => false

/-- `fetch_verified_runs`, as a function of the prior cache content and the
outcome of the remote paginated fetch. The returned pair is (new cache file
content, returned value or raised error). The cache write happens before the
empty check, hence the first component is the filtered merge in every branch. -/
def fetch_verified_runs {α : Type} (existing : List (RawRun α))
    (fetchResult : Except String (List (RawRun α))) :
    List (RawRun α) × Except String (List (RawRun α)) :=
  let fetched := fetchedOf fetchResult
  let lastExc : Option String :=
    match fetchResult with
    | .ok _ => none
    | .error e => some e
  let combined := mergeById (existing ++ fetched)
  let verified := combined.filter isVerified
  if verified.isEmpty && existing.isEmpty then
    (verified, .error
      (match lastExc with
        | none => "Failed to obtain verified runs from API"
        | some e => "Failed to obtain verified runs from API: " ++ e))
  else if verified.isEmpty then (verified, .ok existing)
  else (verified, .ok verified)

theorem find?_map_replace {α : Type} (m : List (RawRun α)) (r : RawRun α) (k : String)
    (hk : r.id ≠ k) :
    (m.map (fun s => if s.id == r.id then r else s)).find? (fun s => s.id == k) =
      m.find? (fun s => s.id == k) := by
  induction m with
  | nil => rfl
  | cons a m ih =>
    simp only [List.map_cons, List.find?_cons]
    by_cases ha : (a.id == r.id) = true
    · have haid : a.id = r.id := by simpa using ha
      have hak : (a.id == k) = false := by simp [haid, hk]
      have hrk : (r.id == k) = false := by simp [hk]
      simp only [ha, if_true, hak, hrk]
      exact ih
    · have ha2 : (a.id == r.id) = false := by simpa using ha
      simp only [ha2, Bool.false_eq_true, if_false]
      cases hak : (a.id == k) with
      | true => simp only [hak]
      | false => simp only [hak]; exact ih

theorem find?_map_replace_self {α : Type} (m : List (RawRun α)) (r : RawRun α)
    (h : m.any (fun s => s.id == r.id)) :
    (m.map (fun s => if s.id == r.id then r else s)).find? (fun s => s.id == r.id) =
      some r := by
  induction m with
  | nil => simp at h
  | cons a m ih =>
    simp only [List.map_cons, List.find?_cons]
    by_cases ha : (a.id == r.id) = true
    · simp only [ha, if_true]
      have : (r.id == r.id) = true := by simp
      simp only [this]
    · have ha2 : (a.id == r.id) = false := by simpa using ha
      simp only [ha2, Bool.false_eq_true, if_false]
      rw [List.any_cons] at h
      exact ih (by simpa [ha2] using h)

theorem find?_not_mem_id {α : Type} (m : List (RawRun α)) (k : String)
    (h : m.any (fun s => s.id == k) = false) :
    m.find? (fun s => s.id == k) = none := by
  induction m with
  | nil => rfl
  | cons a m ih =>
    rw [List.any_cons] at h
    have ha : (a.id == k) = false := by
      cases hx : (a.id == k)
      · rfl
      · rw [hx] at h; simp at h
    simp only [List.find?_cons, ha]
    exact ih (by simpa [ha] using h)

theorem find?_upsert {α : Type} (m : List (RawRun α)) (r : RawRun α) (k : String) :
    (upsert m r).find? (fun s => s.id == k) =
      if r.id = k then some r else m.find? (fun s => s.id == k) := by
  rw [upsert]
  by_cases hany : m.any (fun s => s.id == r.id)
  · rw [if_pos hany]
    by_cases hrk : r.id = k
    · subst hrk
      rw [if_pos rfl]
      exact find?_map_replace_self m r hany
    · rw [if_neg hrk]
      exact find?_map_replace m r k hrk
  · rw [if_neg hany]
    by_cases hrk : r.id = k
    · subst hrk
      rw [if_pos rfl, List.find?_append,
        find?_not_mem_id m r.id (by simpa using hany)]
      simp [List.find?]
    · rw [if_neg hrk, List.find?_append]
      have hone : List.find? (fun s => s.id == k) [r] = none := by
        have : (r.id == k) = false := by simp [hrk]
        simp [List.find?, this]
      rw [hone]
      cases m.find? (fun s => s.id == k) <;> rfl

theorem foldl_last_aux {α : Type} (k : String) :
    ∀ (l : List (RawRun α)) (i : Option (RawRun α)),
      l.foldl (fun acc r => if r.id == k then some r else acc) i =
        (match lastWithId l k with
         | some x => some x
         | none => i) := by
  intro l
  induction l with
  | nil => intro i; rfl
  | cons a l ih =>
    intro i
    show l.foldl _ (if a.id == k then some a else i) = _
    rw [ih]
    have hL : lastWithId (a :: l) k =
        (match lastWithId l k with
         | some x => some x
         | none => if a.id == k then some a else none) := by
      show l.foldl _ (if a.id == k then some a else none) = _
      rw [ih]
    rw [hL]
    cases lastWithId l k with
    | some x => rfl
    | none => cases h : (a.id == k) <;> simp [h]

theorem find?_foldl_upsert {α : Type} (l : List (RawRun α)) :
    ∀ (m : List (RawRun α)) (k : String),
      (l.foldl upsert m).find? (fun s => s.id == k) =
        (match lastWithId l k with
         | some x => some x
         | none => m.find? (fun s => s.id == k)) := by
  induction l with
  | nil => intro m k; rfl
  | cons r l ih =>
    intro m k
    show (l.foldl upsert (upsert m r)).find? _ = _
    rw [ih (upsert m r) k, find?_upsert]
    have hL : lastWithId (r :: l) k =
        (match lastWithId l k with
         | some x => some x
         | none => if r.id == k then some r else none) := by
      show l.foldl _ (if r.id == k then some r else none) = _
      rw [foldl_last_aux]
    rw [hL]
    cases lastWithId l k with
    | some x => rfl
    | none =>
      by_cases h : r.id = k
      · simp [h]
      · have hb : (r.id == k) = false := by simp [h]
        simp [h, hb]

theorem find?_mergeById {α : Type} (l : List (RawRun α)) (k : String) :
    (mergeById l).find? (fun s => s.id == k) = lastWithId l k := by
  rw [mergeById, find?_foldl_upsert]
  cases lastWithId l k <;> rfl

theorem idsOf_upsert {α : Type} (m : List (RawRun α)) (r : RawRun α) :
    (upsert m r).map (·.id) =
      if m.any (fun s => s.id == r.id) then m.map (·.id)
      else m.map (·.id) ++ [r.id] := by
  rw [upsert]
  by_cases h : (m.any fun s => s.id == r.id) = true
  · rw [if_pos h, if_pos h, List.map_map]
    refine List.map_congr_left ?_
    intro a _
    by_cases ha : (a.id == r.id) = true
    · have haid : a.id = r.id := by simpa using ha
      simp [Function.comp, ha, haid]
    · have ha2 : (a.id == r.id) = false := by simpa using ha
      simp [Function.comp, ha2]
  · rw [if_neg h, if_neg h, List.map_append]
    rfl

theorem nodup_ids_foldl {α : Type} (l : List (RawRun α)) :
    ∀ m : List (RawRun α), (m.map (·.id)).Nodup →
      ((l.foldl upsert m).map (·.id)).Nodup := by
  induction l with
  | nil => intro m h; exact h
  | cons r l ih =>
    intro m h
    show ((l.foldl upsert (upsert m r)).map _).Nodup
    refine ih _ ?_
    rw [idsOf_upsert]
    by_cases hany : (m.any fun s => s.id == r.id) = true
    · rw [if_pos hany]; exact h
    · rw [if_neg hany]
      have hnm : r.id ∉ m.map (·.id) := by
        intro hmem
        obtain ⟨s, hs, hid⟩ := List.mem_map.mp hmem
        exact hany (List.any_eq_true.mpr ⟨s, hs, by simp [hid]⟩)
      refine List.nodup_append.mpr ⟨h, List.nodup_singleton _, ?_⟩
      intro a ha hb
      rw [List.mem_singleton] at hb
      subst hb
      exact hnm ha

theorem nodup_ids_mergeById {α : Type} (l : List (RawRun α)) :
    ((mergeById l).map (·.id)).Nodup :=
  nodup_ids_foldl l [] (by simp)

theorem mem_iff_find?_id {α : Type} :
    ∀ m : List (RawRun α), (m.map (·.id)).Nodup → ∀ r : RawRun α,
      (r ∈ m ↔ m.find? (fun s => s.id == r.id) = some r) := by
  intro m
  induction m with
  | nil => intro _ r; simp [List.find?]
  | cons a m ih =>
    intro hnd r
    rw [List.map_cons, List.nodup_cons] at hnd
    obtain ⟨hna, hnd2⟩ := hnd
    simp only [List.find?_cons]
    constructor
    · intro hmem
      rcases List.mem_cons.mp hmem with rfl | hmem2
      · simp
      · have ha : (a.id == r.id) = false := by
          have hrid : r.id ∈ m.map (·.id) := List.mem_map.mpr ⟨r, hmem2, rfl⟩
          by_contra hb
          have hb2 : a.id = r.id := by simpa using hb
          exact hna (hb2 ▸ hrid)
        simp only [ha]
        exact (ih hnd2 r).mp hmem2
    · intro hf
      cases hx : (a.id == r.id) with
      | true =>
        simp only [hx] at hf
        injection hf with hf
        subst hf
        exact List.mem_cons_self _ _
      | false =>
        simp only [hx] at hf
        exact List.mem_cons_of_mem _ ((ih hnd2 r).mpr hf)

theorem mem_mergeById {α : Type} (l : List (RawRun α)) (r : RawRun α) :
    r ∈ mergeById l ↔ lastWithId l r.id = some r := by
  rw [← find?_mergeById]
  exact mem_iff_find?_id (mergeById l) (nodup_ids_mergeById l) r

theorem foldl_upsert_append {α : Type} :
    ∀ (l m : List (RawRun α)), ((m ++ l).map (·.id)).Nodup →
      l.foldl upsert m = m ++ l := by
  intro l
  induction l with
  | nil => intro m _; simp
  | cons r l ih =>
    intro m hnd
    show l.foldl upsert (upsert m r) = m ++ r :: l
    rw [List.map_append, List.nodup_append] at hnd
    obtain ⟨h1, h2, hdisj⟩ := hnd
    have hany : (m.any fun s => s.id == r.id) = false := by
      by_contra hb
      have hb2 : (m.any fun s => s.id == r.id) = true := by simpa using hb
      obtain ⟨s, hs, hsid⟩ := List.any_eq_true.mp hb2
      have hsid2 : s.id = r.id := by simpa using hsid
      refine hdisj (a := r.id) ?_ ?_
      · exact List.mem_map.mpr ⟨s, hs, hsid2⟩
      · rw [List.map_cons]
        exact List.mem_cons_self _ _
    have hups : upsert m r = m ++ [r] := by
      rw [upsert, if_neg (by rw [hany]; exact Bool.false_ne_true)]
    rw [hups]
    have hnd3 : (((m ++ [r]) ++ l).map (·.id)).Nodup := by
      rw [List.append_assoc]
      rw [List.map_append, List.nodup_append]
      refine ⟨h1, ?_, ?_⟩
      · simpa using h2
      · simpa using hdisj
    rw [ih (m ++ [r]) hnd3, List.append_assoc]
    rfl

theorem mergeById_eq_self {α : Type} (l : List (RawRun α))
    (h : (l.map (·.id)).Nodup) : mergeById l = l := by
  have := foldl_upsert_append l [] (by simpa using h)
  simpa [mergeById] using this

theorem fvr_fst {α : Type} (existing : List (RawRun α))
    (fr : Except String (List (RawRun α))) :
    (fetch_verified_runs existing fr).1 =
      (mergeById (existing ++ fetchedOf fr)).filter isVerified := by
  simp only [fetch_verified_runs]
  split_ifs <;> rfl

theorem fvr_error_cond {α : Type} (existing : List (RawRun α))
    (fr : Except String (List (RawRun α)))
    (h : isErr (fetch_verified_runs existing fr).2 = true) :
    (mergeById (existing ++ fetchedOf fr)).filter isVerified = [] ∧ existing = [] := by
  simp only [fetch_verified_runs] at h
  by_cases hc : (((mergeById (existing ++ fetchedOf fr)).filter isVerified).isEmpty &&
      existing.isEmpty) = true
  · rw [Bool.and_eq_true] at hc
    exact ⟨List.isEmpty_iff.mp hc.1, List.isEmpty_iff.mp hc.2⟩
  · exfalso
    rw [if_neg hc] at h
    by_cases hv : ((mergeById (existing ++ fetchedOf fr)).filter isVerified).isEmpty = true
    · rw [if_pos hv] at h
      simp [isErr] at h
    · rw [if_neg hv] at h
      simp [isErr] at h

/-- Claim C3: the repository merge builds an identity-keyed map in which a
fetched record with the same id as a cached one overrides it (last-writer-wins
over existing ++ fetched), keeps exactly the records with status "verified",
and the written cache is that filtered set in every branch, even when empty. -/
theorem merged_verified_cache {α : Type} (existing : List (RawRun α))
    (fr : Except String (List (RawRun α))) :
    (fetch_verified_runs existing fr).1 =
      (mergeById (existing ++ fetchedOf fr)).filter isVerified ∧
    ∀ r : RawRun α, r ∈ (fetch_verified_runs existing fr).1 ↔
      (isVerified r = true ∧ lastWithId (existing ++ fetchedOf fr) r.id = some r) := by
  refine ⟨fvr_fst existing fr, ?_⟩
  intro r
  rw [fvr_fst, List.mem_filter, mem_mergeById]
  exact and_comm

/-- The spec scenario: cached verified r1, fetched r1 (verified, fresh body)
and r2 (rejected). -/
def oldR1 : RawRun ℕ := ⟨"r1", some "verified", 0⟩

def newR1 : RawRun ℕ := ⟨"r1", some "verified", 1⟩

def rejR2 : RawRun ℕ := ⟨"r2", some "rejected", 2⟩

theorem merged_verified_cache_witness :
    (fetch_verified_runs [oldR1] (.ok [newR1, rejR2])).1 =
      (mergeById ([oldR1] ++ fetchedOf (.ok [newR1, rejR2]))).filter isVerified ∧
    ∀ r : RawRun ℕ, r ∈ (fetch_verified_runs [oldR1] (.ok [newR1, rejR2])).1 ↔
      (isVerified r = true ∧
        lastWithId ([oldR1] ++ fetchedOf (.ok [newR1, rejR2])) r.id = some r) :=
  merged_verified_cache [oldR1] (.ok [newR1, rejR2])

/-- Duplicate-identity fetch: a verified record shadowed by a later unverified
record with the same id. -/
def dupVer : RawRun ℕ := ⟨"d1", some "verified", 3⟩

def dupRej : RawRun ℕ := ⟨"d1", some "rejected", 4⟩

/-- Claim C4 counterexample: with an empty cache and a fetched list holding a
verified record shadowed by a later record with the same id and a different
status, the repository raises even though the fresh fetch yielded a verified
record — so it does not fail "only when both sources yield zero verified
records". -/
theorem error_despite_verified_fetch :
    isErr (fetch_verified_runs [] (.ok [dupVer, dupRej])).2 = true ∧
    (fetchedOf (.ok [dupVer, dupRej] : Except String (List (RawRun ℕ)))).filter
      isVerified ≠ [] := by
  constructor
  · rfl
  · decide

/-- Claim C4 (amended): the repository raises only when the existing cache is
empty (hence yields zero verified records) and the identity-merged fetched
records contain zero verified records; and with an empty prior cache and a
transport error it raises, appending the transport error to the message. -/
theorem no_verified_error_iff_both_empty {α : Type} (existing : List (RawRun α))
    (fr : Except String (List (RawRun α))) :
    (isErr (fetch_verified_runs existing fr).2 = true →
      existing = [] ∧
      (mergeById (fetchedOf fr)).filter isVerified = []) ∧
    (∀ e : String, existing = [] → fr = .error e →
      (fetch_verified_runs existing fr).2 =
        .error ("Failed to obtain verified runs from API: " ++ e)) := by
  constructor
  · intro h
    obtain ⟨hv, he⟩ := fvr_error_cond existing fr h
    subst he
    exact ⟨rfl, by simpa using hv⟩
  · intro e he hfe
    subst he
    subst hfe
    rfl

theorem no_verified_error_iff_both_empty_witness :
    (([] : List (RawRun ℕ)) = [] ∧
      (mergeById (fetchedOf (.error "boom" : Except String (List (RawRun ℕ))))).filter
        isVerified = []) ∧
    (fetch_verified_runs ([] : List (RawRun ℕ)) (.error "boom")).2 =
      .error "Failed to obtain verified runs from API: boom" :=
  ⟨(no_verified_error_iff_both_empty [] (.error "boom")).1 rfl,
   (no_verified_error_iff_both_empty [] (.error "boom")).2 "boom" rfl rfl⟩

/-- Claim C5: a transport error with a non-empty prior cache of verified,
distinct-identity records returns that cached list unchanged and does not
raise. -/
theorem cache_fallback_on_transport_error {α : Type} (existing : List (RawRun α))
    (e : String) (hne : existing ≠ []) (hver : ∀ r ∈ existing, isVerified r = true)
    (hnd : (existing.map (·.id)).Nodup) :
    (fetch_verified_runs existing (.error e)).2 = .ok existing := by
  have hm : mergeById (existing ++ fetchedOf (.error e : Except String (List (RawRun α)))) =
      existing := by
    show mergeById (existing ++ []) = existing
    rw [List.append_nil]
    exact mergeById_eq_self existing hnd
  have hf : (mergeById (existing ++
      fetchedOf (.error e : Except String (List (RawRun α))))).filter isVerified =
      existing := by
    rw [hm]
    exact List.filter_eq_self.mpr hver
  have hie : existing.isEmpty = false := by
    cases hx : existing.isEmpty
    · rfl
    · exact absurd (List.isEmpty_iff.mp hx) hne
  rw [fetch_verified_runs]
  rw [hf, hie]
  simp

theorem cache_fallback_on_transport_error_witness :
    ([oldR1] ≠ ([] : List (RawRun ℕ))) ∧ (∀ r ∈ [oldR1], isVerified r = true) ∧
    ([oldR1].map (·.id)).Nodup ∧
    (fetch_verified_runs [oldR1] (.error "boom")).2 = .ok [oldR1] :=
  ⟨by decide, by decide, by decide,
    cache_fallback_on_transport_error [oldR1] "boom" (by decide) (by decide) (by decide)⟩

/-- Claim C10: the cache write precedes the failure check, so in every run that
raises, the cache content has already been replaced by the empty filtered
list — cache state is not preserved on failure. -/
theorem cache_emptied_when_raising {α : Type} (existing : List (RawRun α))
    (fr : Except String (List (RawRun α)))
    (h : isErr (fetch_verified_runs existing fr).2 = true) :
    (fetch_verified_runs existing fr).1 = [] := by
  rw [fvr_fst]
  exact (fvr_error_cond existing fr h).1

theorem cache_emptied_when_raising_witness :
    isErr (fetch_verified_runs ([] : List (RawRun ℕ)) (.error "x")).2 = true ∧
    (fetch_verified_runs ([] : List (RawRun ℕ)) (.error "x")).1 = [] :=
  ⟨rfl, cache_emptied_when_raising [] (.error "x") rfl⟩

/-! ### Resilient fetch client (`api_utils.py`) -/

/-- A successful HTTP JSON payload: its optional top-level `"data"` field and
the whole body (`payload.get("data", payload)` picks the field when present). -/
structure Payload (α : Type) where
  dataField : Option α
  whole : α
  deriving DecidableEq, Repr

/-- `payload.get("data", payload)`. -/
def extractData {α : Type} (p : Payload α) : α :=
  p.dataField.getD p.whole

/-- Outcome of one HTTP attempt. `is429` models
`hasattr(e, "response") and e.response is not None and e.response.status_code == 429`;
`retryAfter` is the parsed integer `Retry-After` header, `none` when the header
is absent or unparsable (both fall back to 1 second). -/
inductive Attempt (α : Type) where
  | success (payload : Payload α)
  | failure (is429 : Bool) (retryAfter : Option ℤ)
  deriving DecidableEq, Repr

/-- The sleep the except-branch performs after a failed attempt with 0-based
index `i`; `none` for a success (no sleep). -/
def sleepOf {α : Type} (backoff : ℚ) (i : ℕ) : Attempt α → Option ℚ
  | .success _ => none
  | .failure true ra => some ((ra.getD 1 : ℤ) : ℚ)
  | .failure false _ => some (backoff * ((i : ℚ) + 1))

/-- The retry loop `for attempt in range(max_retries + 1)`, with the attempt
outcomes supplied by `outcomes`. Returns (payload on success, number of HTTP
attempts performed, sleeps performed in order). `s` is the current 0-based
attempt index, the second argument the remaining loop iterations. -/
def run_attempts {α : Type} (outcomes : ℕ → Attempt α) (backoff : ℚ) (s : ℕ) :
    ℕ → Option (Payload α) × ℕ × List ℚ
  | 0 => (none, 0, [])
  | n + 1 =>
    match outcomes s with
    | .success p => (some p, 1, [])
    | .failure is429 ra =>
      let slp : ℚ := if is429 then ((ra.getD 1 : ℤ) : ℚ) else backoff * ((s : ℚ) + 1)
      let rest := run_attempts outcomes backoff (s + 1) n
      (rest.1, rest.2.1 + 1, slp :: rest.2.2)

/-- Observable trace of one `fetch_api_cached` call. -/
structure FetchTrace (α : Type) where
  attempts : ℕ
  sleeps : List ℚ
  result : Except String α
  writtenCache : Option α
  deriving Repr

/-- `fetch_api_cached`: up to `max_retries + 1` attempts; on success return the
payload's `data` field (or the whole body) and write it to the cache file when
one was supplied; after exhausting the attempts fall back to the readable cache
content if any, else raise. `cache` is `none` when no cache file was passed,
`some none` when the file is missing/unreadable, `some (some v)` when it holds
`v`. -/
def fetch_api_cached {α : Type} (outcomes : ℕ → Attempt α) (cache : Option (Option α))
    (max_retries : ℕ) (backoff_sec : ℚ) : FetchTrace α :=
  let r := run_attempts outcomes backoff_sec 0 (max_retries + 1)
  match r.1 with
  | some p => ⟨r.2.1, r.2.2, .ok (extractData p), some (extractData p)⟩
  | none =>
    match cache with
    | some (some cached) => ⟨r.2.1, r.2.2, .ok cached, none⟩
    | _ => ⟨r.2.1, r.2.2, .error "Failed to fetch", none⟩

theorem run_attempts_bound {α : Type} (o : ℕ → Attempt α) (b : ℚ) :
    ∀ (n s : ℕ), (run_attempts o b s n).2.1 ≤ n := by
  intro n
  induction n with
  | zero => intro s; exact le_refl _
  | succ n ih =>
    intro s
    rw [run_attempts]
    cases o s with
    | success p => simp
    | failure is429 ra =>
      simp only []
      have := ih (s + 1)
      omega

theorem run_attempts_len {α : Type} (o : ℕ → Attempt α) (b : ℚ) :
    ∀ (n s : ℕ),
      ((run_attempts o b s n).1 = none →
        (run_attempts o b s n).2.2.length = (run_attempts o b s n).2.1) ∧
      (∀ p, (run_attempts o b s n).1 = some p →
        (run_attempts o b s n).2.2.length + 1 = (run_attempts o b s n).2.1 ∧
        o (s + (run_attempts o b s n).2.2.length) = .success p) := by
  intro n
  induction n with
  | zero =>
    intro s
    exact ⟨fun _ => rfl, fun p hp => by simp [run_attempts] at hp⟩
  | succ n ih =>
    intro s
    rw [run_attempts]
    cases ho : o s with
    | success p =>
      refine ⟨fun h => by simp at h, fun q hq => ?_⟩
      simp only [Option.some.injEq] at hq
      subst hq
      exact ⟨rfl, by simpa using ho⟩
    | failure is429 ra =>
      simp only []
      constructor
      · intro h
        have := (ih (s + 1)).1 h
        simp only [List.length_cons]
        omega
      · intro p hp
        obtain ⟨hlen, hsucc⟩ := (ih (s + 1)).2 p hp
        refine ⟨by simp only [List.length_cons]; omega, ?_⟩
        simp only [List.length_cons]
        have : s + ((run_attempts o b (s + 1) n).2.2.length + 1) =
            s + 1 + (run_attempts o b (s + 1) n).2.2.length := by omega
        rw [this]
        exact hsucc

theorem run_attempts_get {α : Type} (o : ℕ → Attempt α) (b : ℚ) :
    ∀ (n s j : ℕ), j < (run_attempts o b s n).2.2.length →
      (run_attempts o b s n).2.2.get? j = sleepOf b (s + j) (o (s + j)) := by
  intro n
  induction n with
  | zero => intro s j hj; simp [run_attempts] at hj
  | succ n ih =>
    intro s j hj
    rw [run_attempts] at hj ⊢
    cases ho : o s with
    | success p => rw [ho] at hj; simp at hj
    | failure is429 ra =>
      rw [ho] at hj
      simp only [] at hj ⊢
      cases j with
      | zero =>
        simp only [List.get?_cons_zero, Nat.add_zero, ho, sleepOf]
        cases is429 <;> simp [sleepOf]
      | succ j =>
        simp only [List.get?_cons_succ]
        have hj2 : j < (run_attempts o b (s + 1) n).2.2.length := by
          simp only [List.length_cons] at hj
          omega
        have := ih (s + 1) j hj2
        have harith : s + 1 + j = s + (j + 1) := by omega
        rw [harith] at this
        exact this

theorem fetch_trace_eq {α : Type} (o : ℕ → Attempt α) (cache : Option (Option α))
    (mr : ℕ) (b : ℚ) :
    (fetch_api_cached o cache mr b).attempts = (run_attempts o b 0 (mr + 1)).2.1 ∧
    (fetch_api_cached o cache mr b).sleeps = (run_attempts o b 0 (mr + 1)).2.2 := by
  cases hr : (run_attempts o b 0 (mr + 1)).1 with
  | some p => constructor <;> simp [fetch_api_cached, hr]
  | none =>
    cases cache with
    | none => constructor <;> simp [fetch_api_cached, hr]
    | some c => cases c <;> (constructor <;> simp [fetch_api_cached, hr])

theorem failed_sleep_index {α : Type} (o : ℕ → Attempt α) (b : ℚ) (mr i : ℕ)
    (hi : i < (run_attempts o b 0 (mr + 1)).2.1)
    (hfail : ∀ p, o i ≠ .success p) :
    i < (run_attempts o b 0 (mr + 1)).2.2.length := by
  cases hres : (run_attempts o b 0 (mr + 1)).1 with
  | none =>
    rw [(run_attempts_len o b (mr + 1) 0).1 hres]
    exact hi
  | some p =>
    obtain ⟨hlen, hsucc⟩ := (run_attempts_len o b (mr + 1) 0).2 p hres
    rw [Nat.zero_add] at hsucc
    by_cases hij : i = (run_attempts o b 0 (mr + 1)).2.2.length
    · rw [← hij] at hsucc
      exact absurd hsucc (hfail p)
    · omega

/-- Claim C6: `fetch_api_cached` performs at most `max_retries + 1` HTTP
attempts, and after every failed attempt with 0-based index `i` that carries no
HTTP 429 signal it sleeps exactly `backoff_sec * (i + 1)` seconds — linear in
the attempt index, not exponential. -/
theorem linear_backoff_and_attempt_bound {α : Type} (o : ℕ → Attempt α)
    (cache : Option (Option α)) (mr : ℕ) (b : ℚ) :
    (fetch_api_cached o cache mr b).attempts ≤ mr + 1 ∧
    ∀ i ra, i < (fetch_api_cached o cache mr b).attempts →
      o i = .failure false ra →
      (fetch_api_cached o cache mr b).sleeps.get? i =
        some (b * ((i : ℚ) + 1)) := by
  obtain ⟨ha, hs⟩ := fetch_trace_eq o cache mr b
  constructor
  · rw [ha]; exact run_attempts_bound o b (mr + 1) 0
  · intro i ra hi hf
    rw [ha] at hi
    rw [hs]
    have hilen : i < (run_attempts o b 0 (mr + 1)).2.2.length :=
      failed_sleep_index o b mr i hi (fun p hp => by rw [hf] at hp; exact absurd hp (by simp))
    rw [run_attempts_get o b (mr + 1) 0 i hilen, Nat.zero_add, hf]
    rfl

/-- A run whose first attempt fails without a 429 signal and whose second
attempt succeeds. -/
def outcomesW : ℕ → Attempt ℕ :=
  fun i => if i = 0 then .failure false none else .success ⟨some 42, 7⟩

theorem linear_backoff_and_attempt_bound_witness :
    (fetch_api_cached outcomesW none 2 2).attempts ≤ 2 + 1 ∧
    (0 < (fetch_api_cached outcomesW none 2 2).attempts ∧
     outcomesW 0 = .failure false none ∧
     (fetch_api_cached outcomesW none 2 2).sleeps.get? 0 =
       some ((2 : ℚ) * (((0 : ℕ) : ℚ) + 1))) :=
  ⟨(linear_backoff_and_attempt_bound outcomesW none 2 2).1,
   by decide, rfl,
   (linear_backoff_and_attempt_bound outcomesW none 2 2).2 0 none (by decide) rfl⟩

/-- Claim C7: a failed attempt carrying HTTP 429 sleeps exactly the parsed
`Retry-After` value (1 when absent or unparsable); and in the run where attempt
1 fails with 429 / `Retry-After: 3` and attempt 2 succeeds, exactly one sleep
of 3 seconds occurs and the result is the second payload's `data` field. -/
theorem retry_after_sleep {α : Type} (o : ℕ → Attempt α) (cache : Option (Option α))
    (mr : ℕ) (b : ℚ) :
    (∀ i ra, i < (fetch_api_cached o cache mr b).attempts →
      o i = .failure true ra →
      (fetch_api_cached o cache mr b).sleeps.get? i =
        some ((ra.getD 1 : ℤ) : ℚ)) ∧
    (∀ p : Payload α,
      (fetch_api_cached (fun i => if i = 0 then Attempt.failure true (some 3)
          else Attempt.success p) cache 2 b).sleeps = [((3 : ℤ) : ℚ)] ∧
      (fetch_api_cached (fun i => if i = 0 then Attempt.failure true (some 3)
          else Attempt.success p) cache 2 b).attempts = 2 ∧
      (fetch_api_cached (fun i => if i = 0 then Attempt.failure true (some 3)
          else Attempt.success p) cache 2 b).result = Except.ok (extractData p)) := by
  obtain ⟨ha, hs⟩ := fetch_trace_eq o cache mr b
  constructor
  · intro i ra hi hf
    rw [ha] at hi
    rw [hs]
    have hilen : i < (run_attempts o b 0 (mr + 1)).2.2.length :=
      failed_sleep_index o b mr i hi (fun p hp => by rw [hf] at hp; exact absurd hp (by simp))
    rw [run_attempts_get o b (mr + 1) 0 i hilen, Nat.zero_add, hf]
    rfl
  · intro p
    refine ⟨rfl, rfl, rfl⟩

/-- A run whose first attempt fails with HTTP 429 / `Retry-After: 3` and whose
second attempt succeeds. -/
def outcomes429 : ℕ → Attempt ℕ :=
  fun i => if i = 0 then .failure true (some 3) else .success ⟨some 42, 7⟩

theorem retry_after_sleep_witness :
    (0 < (fetch_api_cached outcomes429 none 2 2).attempts ∧
     outcomes429 0 = .failure true (some 3) ∧
     (fetch_api_cached outcomes429 none 2 2).sleeps.get? 0 =
       some ((((some 3 : Option ℤ).getD 1 : ℤ) : ℚ))) ∧
    (fetch_api_cached (fun i => if i = 0 then Attempt.failure true (some 3)
        else Attempt.success (⟨some 42, 7⟩ : Payload ℕ)) none 2 2).result =
      Except.ok (extractData ⟨some 42, 7⟩) :=
  ⟨⟨by decide, rfl,
    (retry_after_sleep outcomes429 none 2 2).1 0 (some 3) (by decide) rfl⟩,
   ((retry_after_sleep outcomes429 none 2 2).2 ⟨some 42, 7⟩).2.2⟩

/-! ### Paginated collector (`api_client.py`) -/

/-- The fields of `ApiClient` relevant to pagination. -/
structure ApiClient where
  pageSize : ℕ
  deriving Repr

/-- `ApiClient.get_runs`: `m = max or self.page_size` (Python truthiness: both
`None` and `0` fall back to the client default), then fetch the page at
`offset` with page size `m`. `fetchPage` abstracts the HTTP request. -/
def get_runs {R : Type} (fetchPage : ℕ → ℕ → List R) (c : ApiClient) (offset : ℕ)
    (mx : Option ℕ) : List R :=
  let m := match mx with
    | none => c.pageSize
    | some k => if k = 0 then c.pageSize else k
  fetchPage offset m

/-- `used_page = int(page_size) if page_size is not None else self.page_size`:
the amount the offset advances by each iteration. -/
def usedPage (c : ApiClient) (pageSize : Option ℕ) : ℕ :=
  match pageSize with
  | some k => k
  | none => c.pageSize

/-- The page size actually used in each request (the `max` URL parameter). -/
def actualSize (c : ApiClient) (pageSize : Option ℕ) : ℕ :=
  match pageSize with
  | none => c.pageSize
  | some k => if k = 0 then c.pageSize else k

/-- `max_pages is not None and pages_fetched >= int(max_pages)`. -/
def maxPagesReached (mp : Option ℕ) (pf : ℕ) : Bool :=
  match mp with
  | none => false
  | some m => decide (pf ≥ m)

/-- The `while True` loop of `ApiClient.get_all_runs`, with explicit fuel:
`none` means the fuel ran out before the loop stopped (the source loop would
still be running). -/
def get_all_runs_aux {R : Type} (fetchPage : ℕ → ℕ → List R) (c : ApiClient)
    (pageSize maxPages : Option ℕ) :
    ℕ → ℕ → ℕ → List R → Option (List R)
  | 0, _, _, _ => none
  | fuel + 1, offset, pagesFetched, acc =>
    let page := get_runs fetchPage c offset pageSize
    if page.isEmpty then some acc
    else
      if maxPagesReached maxPages (pagesFetched + 1) then some (acc ++ page)
      else get_all_runs_aux fetchPage c pageSize maxPages fuel
        (offset + usedPage c pageSize) (pagesFetched + 1) (acc ++ page)

/-- `ApiClient.get_all_runs` (offset 0, zero pages fetched, empty accumulator). -/
def get_all_runs {R : Type} (fetchPage : ℕ → ℕ → List R) (c : ApiClient)
    (pageSize maxPages : Option ℕ) (fuel : ℕ) : Option (List R) :=
  get_all_runs_aux fetchPage c pageSize maxPages fuel 0 0 []

/-- The same loop, instrumented to record every `(offset, page)` request the
source performs, in order. -/
def get_all_runs_trace_aux {R : Type} (fetchPage : ℕ → ℕ → List R) (c : ApiClient)
    (pageSize maxPages : Option ℕ) :
    ℕ → ℕ → ℕ → Option (List (ℕ × List R))
  | 0, _, _ => none
  | fuel + 1, offset, pagesFetched =>
    let page := get_runs fetchPage c offset pageSize
    if page.isEmpty then some [(offset, page)]
    else
      if maxPagesReached maxPages (pagesFetched + 1) then some [(offset, page)]
      else
        match get_all_runs_trace_aux fetchPage c pageSize maxPages fuel
            (offset + usedPage c pageSize) (pagesFetched + 1) with
        | none => none
        | some rest => some ((offset, page) :: rest)

/-- The request trace of a `get_all_runs` call. -/
def get_all_runs_trace {R : Type} (fetchPage : ℕ → ℕ → List R) (c : ApiClient)
    (pageSize maxPages : Option ℕ) (fuel : ℕ) : Option (List (ℕ × List R)) :=
  get_all_runs_trace_aux fetchPage c pageSize maxPages fuel 0 0

/-- Number of non-empty pages in a trace (the source's `pages_fetched`). -/
def countNonempty {R : Type} (P : List (ℕ × List R)) : ℕ :=
  P.countP (fun pr => !pr.2.isEmpty)

/-- Claim C8 as stated, as a property of one terminating `get_all_runs` call:
the result is the concatenation of the fetched pages in fetch order; the i-th
request's offset is i times the actual page size used for the request; only the
last fetched page may be empty; and when `max_pages = m` is specified at most
`m` (non-empty) pages are fetched. -/
def c8Stated {R : Type} (fetchPage : ℕ → ℕ → List R) (c : ApiClient)
    (pageSize maxPages : Option ℕ) (fuel : ℕ) : Prop :=
  ∀ P res, get_all_runs_trace fetchPage c pageSize maxPages fuel = some P →
    get_all_runs fetchPage c pageSize maxPages fuel = some res →
    res = (P.map Prod.snd).join ∧
    (∀ i, (hi : i < P.length) → (P.get ⟨i, hi⟩).1 = i * actualSize c pageSize) ∧
    (∀ i, (hi : i + 1 < P.length) → (P.get ⟨i, Nat.lt_of_succ_lt hi⟩).2 ≠ []) ∧
    (∀ m, maxPages = some m → countNonempty P ≤ m)

theorem get_runs_eq {R : Type} (fetchPage : ℕ → ℕ → List R) (c : ApiClient)
    (offset : ℕ) (mx : Option ℕ) :
    get_runs fetchPage c offset mx = fetchPage offset (actualSize c mx) := by
  cases mx <;> rfl

/-- A remote API that always returns one record per page. -/
def cexFetch : ℕ → ℕ → List ℕ :=
  fun _ _ => [7]

def cexClient : ApiClient := ⟨2⟩

/-- Claim C8 counterexample: with `page_size = 0` (Python falsy) the request
uses the client default size 2, but the offset advances by `int(0) = 0`, so the
second request repeats offset 0 instead of moving to offset 2 — the claim's
"offset advances by the actual page size used" fails. -/
theorem pagesize_zero_offset_stuck :
    get_all_runs_trace cexFetch cexClient (some 0) (some 2) 3 =
      some [(0, [7]), (0, [7])] ∧
    get_all_runs cexFetch cexClient (some 0) (some 2) 3 = some [7, 7] ∧
    ¬ c8Stated cexFetch cexClient (some 0) (some 2) 3 := by
  refine ⟨rfl, rfl, ?_⟩
  intro h
  obtain ⟨-, hoff, -, -⟩ := h [(0, [7]), (0, [7])] [7, 7] rfl rfl
  have h2 := hoff 1 (by decide)
  exact absurd h2 (by decide)

theorem getLastD_ne_nil {β : Type} {l : List β} (h : l ≠ []) (d1 d2 : β) :
    l.getLastD d1 = l.getLastD d2 := by
  cases l with
  | nil => exact absurd rfl h
  | cons a l => rfl

theorem trace_aux_spec {R : Type} (f : ℕ → ℕ → List R) (c : ApiClient)
    (po mp : Option ℕ) :
    ∀ (fuel offset pf : ℕ) (P : List (ℕ × List R)),
      get_all_runs_trace_aux f c po mp fuel offset pf = some P →
      P ≠ [] ∧
      (∀ i, (hi : i < P.length) → (P.get ⟨i, hi⟩).1 = offset + i * usedPage c po) ∧
      (∀ i, (hi : i < P.length) →
        (P.get ⟨i, hi⟩).2 = f (offset + i * usedPage c po) (actualSize c po)) ∧
      (∀ i, (hi : i + 1 < P.length) → (P.get ⟨i, Nat.lt_of_succ_lt hi⟩).2 ≠ []) ∧
      ((P.getLastD (0, [])).2 = [] ∨
        ∃ m, mp = some m ∧ pf + countNonempty P = max m (pf + 1)) ∧
      (∀ m, mp = some m → pf + countNonempty P ≤ max m (pf + 1)) := by
  intro fuel
  induction fuel with
  | zero => intro offset pf P h; simp [get_all_runs_trace_aux] at h
  | succ fuel ih =>
    intro offset pf P h
    rw [get_all_runs_trace_aux] at h
    by_cases hpage : (get_runs f c offset po).isEmpty = true
    · rw [if_pos hpage] at h
      injection h with h
      subst h
      have hpl : get_runs f c offset po = [] := List.isEmpty_iff.mp hpage
      refine ⟨by simp, ?_, ?_, ?_, ?_, ?_⟩
      · intro i hi
        have hi0 : i = 0 := Nat.lt_one_iff.mp (by simpa using hi)
        subst hi0
        simp
      · intro i hi
        have hi0 : i = 0 := Nat.lt_one_iff.mp (by simpa using hi)
        subst hi0
        simpa using get_runs_eq f c offset po
      · intro i hi
        simp at hi
      · left
        simpa [List.getLastD] using hpl
      · intro m hm
        have hc : countNonempty [(offset, get_runs f c offset po)] = 0 := by
          simp [countNonempty, List.countP_cons, hpl]
        rw [hc]
        have := Nat.le_max_right m (pf + 1)
        omega
    · rw [if_neg hpage] at h
      have hpne : get_runs f c offset po ≠ [] := by
        intro hx
        rw [hx] at hpage
        exact hpage rfl
      by_cases hmr : maxPagesReached mp (pf + 1) = true
      · rw [if_pos hmr] at h
        injection h with h
        subst h
        obtain ⟨m, hm, hge⟩ : ∃ m, mp = some m ∧ m ≤ pf + 1 := by
          cases hmp : mp with
          | none => rw [hmp] at hmr; simp [maxPagesReached] at hmr
          | some m =>
            rw [hmp] at hmr
            simp [maxPagesReached] at hmr
            exact ⟨m, rfl, hmr⟩
        have hc : countNonempty [(offset, get_runs f c offset po)] = 1 := by
          simp [countNonempty, List.countP_cons,
            List.isEmpty_eq_false_iff_exists_mem.mpr
              (List.exists_mem_of_ne_nil _ hpne)]
        refine ⟨by simp, ?_, ?_, ?_, ?_, ?_⟩
        · intro i hi
          have hi0 : i = 0 := Nat.lt_one_iff.mp (by simpa using hi)
          subst hi0
          simp
        · intro i hi
          have hi0 : i = 0 := Nat.lt_one_iff.mp (by simpa using hi)
          subst hi0
          simpa using get_runs_eq f c offset po
        · intro i hi
          simp at hi
        · right
          exact ⟨m, hm, by rw [hc]; omega⟩
        · intro m2 hm2
          rw [hm2] at hm
          injection hm with hm
          subst hm
          rw [hc]
          omega
      · rw [if_neg hmr] at h
        cases htr : get_all_runs_trace_aux f c po mp fuel
            (offset + usedPage c po) (pf + 1) with
        | none => rw [htr] at h; simp at h
        | some rest =>
          rw [htr] at h
          injection h with h
          subst h
          obtain ⟨hne2, hoff2, hcont2, hmid2, hlast2, hbound2⟩ :=
            ih (offset + usedPage c po) (pf + 1) rest htr
          have hcnt : countNonempty ((offset, get_runs f c offset po) :: rest) =
              countNonempty rest + 1 := by
            simp [countNonempty, List.countP_cons,
              List.isEmpty_eq_false_iff_exists_mem.mpr
                (List.exists_mem_of_ne_nil _ hpne)]
          have hmlt : ∀ m, mp = some m → pf + 1 < m := by
            intro m hm
            rw [hm] at hmr
            simp [maxPagesReached] at hmr
            omega
          refine ⟨by simp, ?_, ?_, ?_, ?_, ?_⟩
          · intro i hi
            cases i with
            | zero => simp
            | succ i =>
              have hi2 : i < rest.length := by simpa using hi
              have := hoff2 i hi2
              rw [List.get_cons_succ]
              rw [this]
              ring
          · intro i hi
            cases i with
            | zero => simpa using get_runs_eq f c offset po
            | succ i =>
              have hi2 : i < rest.length := by simpa using hi
              have := hcont2 i hi2
              rw [List.get_cons_succ, this]
              have harith : offset + usedPage c po + i * usedPage c po =
                  offset + (i + 1) * usedPage c po := by ring
              rw [harith]
          · intro i hi
            cases i with
            | zero => simpa using hpne
            | succ i =>
              have hi2 : i + 1 < rest.length := by simpa using hi
              have := hmid2 i hi2
              rw [List.get_cons_succ]
              exact this
          · have hgl : (((offset, get_runs f c offset po) :: rest).getLastD (0, [])) =
                rest.getLastD (0, []) := by
              rw [List.getLastD_cons]
              exact getLastD_ne_nil hne2 _ _
            rcases hlast2 with hl | ⟨m, hm, heq⟩
            · left
              rw [hgl]
              exact hl
            · right
              refine ⟨m, hm, ?_⟩
              have hlt := hmlt m hm
              have h1 : max m (pf + 1 + 1) = m := Nat.max_eq_left (by omega)
              have h2 : max m (pf + 1) = m := Nat.max_eq_left (by omega)
              rw [hcnt, h2]
              rw [h1] at heq
              omega
          · intro m hm
            have hlt := hmlt m hm
            have hb := hbound2 m hm
            have h1 : max m (pf + 1 + 1) = m := Nat.max_eq_left (by omega)
            have h2 : max m (pf + 1) = m := Nat.max_eq_left (by omega)
            rw [hcnt, h2]
            rw [h1] at hb
            omega

theorem aux_eq_trace {R : Type} (f : ℕ → ℕ → List R) (c : ApiClient)
    (po mp : Option ℕ) :
    ∀ (fuel offset pf : ℕ) (acc : List R) (P : List (ℕ × List R)),
      get_all_runs_trace_aux f c po mp fuel offset pf = some P →
      get_all_runs_aux f c po mp fuel offset pf acc =
        some (acc ++ (P.map Prod.snd).join) := by
  intro fuel
  induction fuel with
  | zero => intro offset pf acc P h; simp [get_all_runs_trace_aux] at h
  | succ fuel ih =>
    intro offset pf acc P h
    rw [get_all_runs_trace_aux] at h
    rw [get_all_runs_aux]
    by_cases hpage : (get_runs f c offset po).isEmpty = true
    · rw [if_pos hpage] at h
      rw [if_pos hpage]
      injection h with h
      subst h
      have hpl : get_runs f c offset po = [] := List.isEmpty_iff.mp hpage
      simp [hpl]
    · rw [if_neg hpage] at h
      rw [if_neg hpage]
      by_cases hmr : maxPagesReached mp (pf + 1) = true
      · rw [if_pos hmr] at h
        rw [if_pos hmr]
        injection h with h
        subst h
        simp
      · rw [if_neg hmr] at h
        rw [if_neg hmr]
        cases htr : get_all_runs_trace_aux f c po mp fuel
            (offset + usedPage c po) (pf + 1) with
        | none => rw [htr] at h; simp at h
        | some rest =>
          rw [htr] at h
          injection h with h
          subst h
          rw [ih (offset + usedPage c po) (pf + 1)
            (acc ++ get_runs f c offset po) rest htr]
          simp [List.append_assoc]

/-- Claim C8 (amended): for every terminating run, `get_all_runs` returns the
concatenation of all fetched pages in fetch order; at least one page is always
requested; the i-th request's offset is `i * used_page`, where `used_page` is
the `page_size` argument when specified (including 0 — in which case the
request itself uses the client default size, so request size and offset
advance differ) and the client default otherwise; each page is the fetch
result at its offset with the actual request size; every page but the last is
non-empty; the loop stops on an empty page or, when `max_pages = m` is
specified, after `max m 1` non-empty pages (so one page is fetched even for
`m = 0`), and never fetches more than `max m 1` non-empty pages. -/
theorem get_all_runs_pages {R : Type} (f : ℕ → ℕ → List R) (c : ApiClient)
    (po mp : Option ℕ) (fuel : ℕ) (P : List (ℕ × List R)) (res : List R)
    (hP : get_all_runs_trace f c po mp fuel = some P)
    (hres : get_all_runs f c po mp fuel = some res) :
    res = (P.map Prod.snd).join ∧
    P ≠ [] ∧
    (∀ i, (hi : i < P.length) → (P.get ⟨i, hi⟩).1 = i * usedPage c po) ∧
    (∀ i, (hi : i < P.length) →
      (P.get ⟨i, hi⟩).2 = f (i * usedPage c po) (actualSize c po)) ∧
    (∀ i, (hi : i + 1 < P.length) → (P.get ⟨i, Nat.lt_of_succ_lt hi⟩).2 ≠ []) ∧
    ((P.getLastD (0, [])).2 = [] ∨
      ∃ m, mp = some m ∧ countNonempty P = max m 1) ∧
    (∀ m, mp = some m → countNonempty P ≤ max m 1) := by
  rw [get_all_runs_trace] at hP
  have hjoin := aux_eq_trace f c po mp fuel 0 0 [] P hP
  rw [get_all_runs] at hres
  rw [hjoin] at hres
  injection hres with hres
  obtain ⟨hne, hoff, hcont, hmid, hlast, hbound⟩ := trace_aux_spec f c po mp fuel 0 0 P hP
  refine ⟨by rw [← hres]; simp, hne, ?_, ?_, hmid, ?_, ?_⟩
  · intro i hi
    rw [hoff i hi, Nat.zero_add]
  · intro i hi
    rw [hcont i hi, Nat.zero_add]
  · simpa using hlast
  · intro m hm
    simpa using hbound m hm

/-- A remote API returning one record per page, used by the collector witness. -/
def wFetch : ℕ → ℕ → List ℕ :=
  fun _ _ => [5]

def wClient : ApiClient := ⟨2⟩

theorem get_all_runs_pages_witness :
    get_all_runs_trace wFetch wClient none (some 1) 2 = some [(0, [5])] ∧
    get_all_runs wFetch wClient none (some 1) 2 = some [5] ∧
    (([5] : List ℕ) = (([(0, [5])] : List (ℕ × List ℕ)).map Prod.snd).join ∧
     ([(0, [5])] : List (ℕ × List ℕ)) ≠ [] ∧
     (∀ i, (hi : i < ([(0, [5])] : List (ℕ × List ℕ)).length) →
       (([(0, [5])] : List (ℕ × List ℕ)).get ⟨i, hi⟩).1 = i * usedPage wClient none) ∧
     (∀ i, (hi : i < ([(0, [5])] : List (ℕ × List ℕ)).length) →
       (([(0, [5])] : List (ℕ × List ℕ)).get ⟨i, hi⟩).2 =
         wFetch (i * usedPage wClient none) (actualSize wClient none)) ∧
     (∀ i, (hi : i + 1 < ([(0, [5])] : List (ℕ × List ℕ)).length) →
       (([(0, [5])] : List (ℕ × List ℕ)).get ⟨i, Nat.lt_of_succ_lt hi⟩).2 ≠ []) ∧
     ((([(0, [5])] : List (ℕ × List ℕ)).getLastD (0, [])).2 = [] ∨
       ∃ m, (some 1 : Option ℕ) = some m ∧
         countNonempty ([(0, [5])] : List (ℕ × List ℕ)) = max m 1) ∧
     (∀ m, (some 1 : Option ℕ) = some m →
       countNonempty ([(0, [5])] : List (ℕ × List ℕ)) ≤ max m 1)) :=
  ⟨rfl, rfl, get_all_runs_pages wFetch wClient none (some 1) 2 [(0, [5])] [5] rfl rfl⟩

end ShadowDashboard
